import Mathlib

/-!
# Verification of the lecture-transcript search engine and agent orchestrator

A shallow embedding, in Lean 4, of the core of the `lecture-RL` repository:

* `lecture_search_tools.py` — keyword extraction (`extract_key_terms`),
  filtered full-text search (`search_lectures`), the four-tier fallback
  search (`search_with_fallback`), single-entry lookup (`read_lecture`),
  context windows (`get_session_context`) and session listing
  (`get_session_list`);
* `run_agent.py` — the bounded tool-calling agent loop
  (`run_agent_with_tools`).

Python strings are embedded as `List Char` (written `Str`), Python `int`
as `Int`, SQLite rowids as `Nat`.  Behaviour that lives inside the SQLite
FTS5 engine rather than in the repository's code — which rows a `MATCH`
against the `porter unicode61` index accepts for a single quoted prefix
term, the `bm25`-based `rank` value, and the rendered `snippet()` text —
is modelled by abstract function fields of the `Db` structure; everything
the Python code itself does (keyword expansion, AND/OR query construction,
structural filters, ordering keys, result caps, tier escalation, the
conversation state machine) is translated concretely from the source.
-/

/-- Python `str` is embedded as a list of characters. -/
abbrev Str := List Char

/-- `strLower` embeds Python `str.lower()` (the corpus and all queries are
ASCII; `Char.toLower` lower-cases exactly the ASCII range). -/
def strLower (s : Str) : Str := s.map Char.toLower

/-- Character class of Python's regex `\w` (ASCII fragment):
letters, digits and underscore. -/
def isWordChar (c : Char) : Bool := c.isAlphanum || c == '_'

/-- `splitTokens p l` returns the maximal runs of characters satisfying `p`,
in order: the embedding of `re.findall(r'\b\w+\b', s)` when `p` is
`isWordChar` (split at every non-word character, discard empty pieces). -/
def splitTokens (p : Char → Bool) (l : List Char) : List (List Char) :=
  (l.splitOnP (fun c => !p c)).filter (fun t => !t.isEmpty)

/-- First-occurrence-preserving deduplication with an explicit `seen`
accumulator: the embedding of the `seen = set(); ...` loop in
`extract_key_terms` (and of `dict.fromkeys` in `search_lectures`). -/
def dedupFirstAux {α : Type} [DecidableEq α] (seen : List α) : List α → List α
  | [] => []
  | x :: xs =>
    if x ∈ seen then dedupFirstAux seen xs
    else x :: dedupFirstAux (x :: seen) xs

/-- Deduplicate keeping the first occurrence of each element. -/
def dedupFirst {α : Type} [DecidableEq α] (l : List α) : List α :=
  dedupFirstAux [] l

/-- `" ".join(terms)` from Python. -/
def joinSpace (l : List Str) : Str := List.intercalate [' '] l

/-- The stop-word set of `extract_key_terms` (lecture_search_tools.py,
lines 182-187), verbatim. -/
def stopWords : List Str :=
  (["what", "who", "when", "where", "why", "how", "is", "are", "was", "were",
    "do", "does", "did", "can", "could", "would", "should", "the", "a", "an",
    "in", "on", "at", "to", "for", "of", "with", "by", "from", "about",
    "anyone", "someone", "something", "anything", "explain", "describe"]
    : List String).map String.toList

/-- Python `term[:-n]`, for `n ≤ len(term)`: drop the last `n` characters. -/
def dropSuffix (t : Str) (n : Nat) : Str := t.take (t.length - n)

/-- Python `term.endswith(suf)`. -/
def strEndsWith (t suf : Str) : Bool := suf.isSuffixOf t

/-- The per-term stem-variant expansion of `extract_key_terms`
(lecture_search_tools.py, lines 199-208): emit the term itself, then
`term[:-3]` when it ends in `ing` with `len(term) > 5`, else both
`term[:-2]` and `term[:-1]` when it ends in `ed` with `len(term) > 4`. -/
def extractVariants (term : Str) : List Str :=
  term ::
    (if strEndsWith term ['i', 'n', 'g'] && decide (term.length > 5) then
      [dropSuffix term 3]
    else if strEndsWith term ['e', 'd'] && decide (term.length > 4) then
      [dropSuffix term 2, dropSuffix term 1]
    else [])

/-- `extract_key_terms(question)` (lecture_search_tools.py, lines 171-218):
lower-case, tokenize on `\w+`, drop stop-words and tokens of length ≤ 2,
append stem variants, deduplicate preserving first occurrence. -/
def extract_key_terms (question : Str) : List Str :=
  let words := splitTokens isWordChar (strLower question)
  let key_terms := words.filter (fun w => !stopWords.contains w && decide (w.length > 2))
  let expanded_terms := key_terms.flatMap extractVariants
  dedupFirst expanded_terms

example : extract_key_terms "What is q-learning?".toList =
    ["learning".toList, "learn".toList] := by decide

example : extract_key_terms "managed".toList =
    ["managed".toList, "manag".toList, "manage".toList] := by decide

example : extract_key_terms "speeding".toList =
    ["speeding".toList, "speed".toList] := by decide

/-! ## Data model of the entry store (`lectures` table, import_lectures.py) -/

/-- One row of the `lectures` table: rowid, session classification, speaker,
`HH:MM:SS` timestamp and content.  This is also the shape of
`project_types.LectureEntry`, which `read_lecture` and
`get_session_context` return. -/
structure Entry where
  id : Nat
  session_type : Str
  session_number : Int
  speaker_name : Str
  timestamp : Str
  content : Str
deriving DecidableEq

/-- The `SearchResult` dataclass of lecture_search_tools.py. -/
structure SearchResult where
  entry_id : Nat
  session_type : Str
  session_number : Int
  speaker_name : Str
  timestamp : Str
  snippet : Str
deriving DecidableEq

/-- The read-only database.  `entries` is the `lectures` table in rowid
order.  The three function fields model behaviour computed inside the
SQLite FTS5 engine, not in the repository's code: `ftsMatch k e` is
whether the single quoted prefix term `"k*"` matches the FTS row of `e`
under the `porter unicode61` tokenizer, `rank` is the bm25-based `rank`
value of an entry for a given term list and AND/OR mode (lower = more
relevant, `ORDER BY rank` puts the best match first), and `snippet` is
the rendered `snippet(lectures_fts, -1, '<b>', '</b>', '...', 20)`
text. -/
structure Db where
  entries : List Entry
  ftsMatch : Str → Entry → Bool
  rank : List Str → Bool → Nat → Int
  snippet : List Str → Bool → Entry → Str

/-! ## Sort keys: `ORDER BY` is modelled as a total-order sort whose final
tie-break is the rowid, matching SQLite's rowid-ordered table scan. -/

/-- Non-strict comparison by a key into a linear order. -/
abbrev keyLe {α β : Type} [LinearOrder β] (f : α → β) (a b : α) : Prop :=
  f a ≤ f b

/-- Strict comparison by a key into a linear order. -/
abbrev keyLt {α β : Type} [LinearOrder β] (f : α → β) (a b : α) : Prop :=
  f a < f b

/-- Lexicographic refinement: compare by `f` first, break ties with `r`. -/
abbrev keyLexLe {α β : Type} [LinearOrder β] (f : α → β) (r : α → α → Prop) (a b : α) : Prop :=
  f a < f b ∨ (f a = f b ∧ r a b)

instance keyLeDec {α β : Type} [LinearOrder β] (f : α → β) : DecidableRel (keyLe f) :=
  fun a b => inferInstanceAs (Decidable (f a ≤ f b))

instance keyLexLeDec {α β : Type} [LinearOrder β] (f : α → β) (r : α → α → Prop)
    [DecidableRel r] : DecidableRel (keyLexLe f r) :=
  fun a b => inferInstanceAs (Decidable (f a < f b ∨ (f a = f b ∧ r a b)))

/-- `ORDER BY rank` (tie-break: rowid). -/
abbrev entryRankLe (db : Db) (uks : List Str) (use_or_search : Bool) : Entry → Entry → Prop :=
  keyLexLe (fun e => db.rank uks use_or_search e.id) (keyLe (·.id))

/-- `ORDER BY l.session_type, l.session_number, l.timestamp` (tie-break: rowid). -/
abbrev entryChronoLe : Entry → Entry → Prop :=
  keyLexLe (·.session_type)
    (keyLexLe (·.session_number) (keyLexLe (·.timestamp) (keyLe (·.id))))

/-- `ORDER BY timestamp` within one session (tie-break: rowid). -/
abbrev entryTsLe : Entry → Entry → Prop :=
  keyLexLe (·.timestamp) (keyLe (·.id))

/-! ## `search_lectures` (lecture_search_tools.py, lines 36-168) -/

/-- Keyword expansion of `search_lectures` (lines 74-83): the lower-cased
keyword, then — via an `elif` chain, with the suffix tested on
`kw.lower()` but the slice taken from `kw` itself — `kw[:-3]` for `-ing`
with `len(kw) > 4`, `kw[:-3] + 'y'` for `-ies` with `len(kw) > 4`,
`kw[:-2]` for `-ed` with `len(kw) > 3`. -/
def searchKeywordVariants (kw : Str) : List Str :=
  strLower kw ::
    (if strEndsWith (strLower kw) ['i', 'n', 'g'] && decide (kw.length > 4) then
      [dropSuffix kw 3]
    else if strEndsWith (strLower kw) ['i', 'e', 's'] && decide (kw.length > 4) then
      [dropSuffix kw 3 ++ ['y']]
    else if strEndsWith (strLower kw) ['e', 'd'] && decide (kw.length > 3) then
      [dropSuffix kw 2]
    else [])

/-- Expanded, deduplicated term list (lines 74-86, `dict.fromkeys`). -/
def expandSearchKeywords (keywords : List Str) : List Str :=
  dedupFirst (keywords.flatMap searchKeywordVariants)

/-- The FTS `MATCH` clause built on lines 88-93: quoted prefix terms joined
with `OR` (match ANY term) or juxtaposition (match ALL terms). -/
def entryMatchesQuery (db : Db) (uks : List Str) (use_or_search : Bool) (e : Entry) : Bool :=
  if use_or_search then uks.any (fun k => db.ftsMatch k e)
  else uks.all (fun k => db.ftsMatch k e)

/-- Python truthiness of an optional string (`if session_type:` treats both
`None` and `""` as absent). -/
def optTruthy (o : Option Str) : Option Str :=
  match o with
  | some (c :: cs) => some (c :: cs)
  | _ => none

/-- The conjunctive structural filters of lines 99-117.  The speaker filter
is `LIKE '%name%'`, i.e. an ASCII-case-insensitive substring test (LIKE
metacharacters inside the value are not modelled); the timestamp filters
compare TEXT with `>=` / `<`, i.e. lexicographically. -/
def entryPassesFilters (session_type : Option Str) (session_number : Option Int)
    (speaker_name : Option Str) (date_after : Option Str) (date_before : Option Str)
    (e : Entry) : Bool :=
  (match optTruthy session_type with
   | none => true
   | some s => e.session_type == s) &&
  (match session_number with
   | none => true
   | some n => e.session_number == n) &&
  (match optTruthy speaker_name with
   | none => true
   | some s => decide ((strLower s) <:+: (strLower e.speaker_name))) &&
  (match optTruthy date_after with
   | none => true
   | some s => decide (s ≤ e.timestamp)) &&
  (match optTruthy date_before with
   | none => true
   | some s => decide (e.timestamp < s))

/-- `LIMIT ?`: SQLite treats a negative limit as "no limit". -/
def limitRows {α : Type} (n : Int) (l : List α) : List α :=
  if n < 0 then l else l.take n.toNat

/-- Python truthiness of the `keywords` argument (`if keywords:`). -/
def keywordsTruthy (k : Option (List Str)) : Option (List Str) :=
  match k with
  | some (x :: xs) => some (x :: xs)
  | _ => none

/-- Row projection of the FTS query (lines 123-136). -/
def ftsResult (db : Db) (uks : List Str) (use_or_search : Bool) (e : Entry) : SearchResult :=
  { entry_id := e.id, session_type := e.session_type, session_number := e.session_number,
    speaker_name := e.speaker_name, timestamp := e.timestamp,
    snippet := db.snippet uks use_or_search e }

/-- Row projection of the keywordless query (lines 140-152):
`substr(l.content, 1, 150) || '...'`. -/
def plainResult (e : Entry) : SearchResult :=
  { entry_id := e.id, session_type := e.session_type, session_number := e.session_number,
    speaker_name := e.speaker_name, timestamp := e.timestamp,
    snippet := e.content.take 150 ++ "...".toList }

/-- The rows returned by `search_lectures` once the cap check has passed:
FTS match + filters, `ORDER BY rank LIMIT n` when keywords are truthy,
filters only, `ORDER BY session_type, session_number, timestamp LIMIT n`
otherwise. -/
def searchRows (db : Db) (keywords : Option (List Str)) (use_or_search : Bool)
    (session_type : Option Str) (session_number : Option Int) (speaker_name : Option Str)
    (date_after : Option Str) (date_before : Option Str) (max_results : Int) :
    List SearchResult :=
  match keywordsTruthy keywords with
  | some ks =>
    let uks := expandSearchKeywords ks
    let rows := db.entries.filter (fun e =>
      entryMatchesQuery db uks use_or_search e &&
      entryPassesFilters session_type session_number speaker_name date_after date_before e)
    (limitRows max_results (rows.insertionSort (entryRankLe db uks use_or_search))).map
      (ftsResult db uks use_or_search)
  | none =>
    let rows := db.entries.filter
      (entryPassesFilters session_type session_number speaker_name date_after date_before)
    (limitRows max_results (rows.insertionSort entryChronoLe)).map plainResult

/-- The `ValueError` message raised on line 63. -/
def capErrorMsg : Str := "max_results must be less than or equal to 10.".toList

/-- `search_lectures` (lines 36-168): reject caps above 10 before querying,
otherwise return the capped, ordered rows. -/
def search_lectures (db : Db) (keywords : Option (List Str) := none)
    (use_or_search : Bool := false) (session_type : Option Str := none)
    (session_number : Option Int := none) (speaker_name : Option Str := none)
    (date_after : Option Str := none) (date_before : Option Str := none)
    (max_results : Int := 10) : Except Str (List SearchResult) :=
  if max_results > 10 then .error capErrorMsg
  else .ok (searchRows db keywords use_or_search session_type session_number speaker_name
    date_after date_before max_results)

/-- `search_with_fallback` (lines 221-295): extract key terms, return `[]`
if none; otherwise four tiers — AND scoped, OR scoped, AND global, OR
global — stopping at the first non-empty result.  A `ValueError`
(`Except.error`) raised by a tier propagates, as in Python. -/
def search_with_fallback (db : Db) (question : Str) (session_type : Option Str := none)
    (session_number : Option Int := none) (max_results : Int := 10) :
    Except Str (List SearchResult) :=
  let keywords := extract_key_terms question
  if keywords.isEmpty then .ok []
  else
    match search_lectures db (some keywords) false session_type session_number none none none
      max_results with
    | .error e => .error e
    | .ok r1 =>
      if !r1.isEmpty then .ok r1
      else
        match search_lectures db (some keywords) true session_type session_number none none none
          max_results with
        | .error e => .error e
        | .ok r2 =>
          if !r2.isEmpty then .ok r2
          else
            match search_lectures db (some keywords) false none none none none none
              max_results with
            | .error e => .error e
            | .ok r3 =>
              if !r3.isEmpty then .ok r3
              else search_lectures db (some keywords) true none none none none none max_results

/-- `read_lecture` (lines 298-331): exact-rowid lookup, `None` when the
row does not exist. -/
def read_lecture (db : Db) (entry_id : Int) : Option Entry :=
  db.entries.find? (fun e => (e.id : Int) == entry_id)

/-! ## `get_session_context` (lecture_search_tools.py, lines 334-393) -/

/-- Python list slicing `l[a:b]` with step 1: negative bounds count from
the end, out-of-range bounds are clamped. -/
def pySlice {α : Type} (l : List α) (a b : Int) : List α :=
  (l.take (if b < 0 then max 0 ((l.length : Int) + b)
    else min b (l.length : Int)).toNat).drop
    (if a < 0 then max 0 ((l.length : Int) + a) else min a (l.length : Int)).toNat

/-- The `target_index` scan of lines 371-385: the loop overwrites
`target_index` on every id match, so the last matching index wins. -/
def lastMatchIdx (entry_id : Int) : List Entry → Option Nat
  | [] => none
  | e :: es =>
    match lastMatchIdx entry_id es with
    | some j => some (j + 1)
    | none => if (e.id : Int) == entry_id then some 0 else none

/-- `get_session_context(entry_id, context_size=5)`: locate the target row,
fetch its session ordered by timestamp, and slice
`[max(0, ti - cs) : min(len, ti + cs + 1)]` around the target; `[]` when
the id does not exist. -/
def get_session_context (db : Db) (entry_id : Int) (context_size : Int := 5) : List Entry :=
  match db.entries.find? (fun e => (e.id : Int) == entry_id) with
  | none => []
  | some tgt =>
    let all_entries := (db.entries.filter (fun e =>
      e.session_type == tgt.session_type && e.session_number == tgt.session_number)
      ).insertionSort entryTsLe
    match lastMatchIdx entry_id all_entries with
    | none => []
    | some ti =>
      pySlice all_entries (max 0 ((ti : Int) - context_size))
        (min (all_entries.length : Int) ((ti : Int) + context_size + 1))

/-! ## `get_session_list` (lecture_search_tools.py, lines 420-449) -/

/-- One element of the session listing. -/
structure SessionInfo where
  session_type : Str
  session_number : Int
  entry_count : Nat
  start_time : Str
  end_time : Str
  speaker_count : Nat
  full_id : Str
deriving DecidableEq

/-- Decimal rendering of an integer, for `f"{type}_{number}"`. -/
def intToStr (i : Int) : Str :=
  if i < 0 then '-' :: Nat.toDigits 10 (-i).toNat else Nat.toDigits 10 i.toNat

/-- `GROUP BY session_type, session_number` key. -/
def sessionKey (e : Entry) : Str × Int := (e.session_type, e.session_number)

/-- `ORDER BY session_type, session_number` over the group keys. -/
abbrev sessionKeyLe : (Str × Int) → (Str × Int) → Prop :=
  keyLexLe Prod.fst (keyLe Prod.snd)

/-- SQL `MIN` over a TEXT column (groups are non-empty; `[]` is unused). -/
def foldMinStr (l : List Str) : Str :=
  match l with
  | [] => []
  | x :: xs => xs.foldl (fun a b => if b < a then b else a) x

/-- SQL `MAX` over a TEXT column. -/
def foldMaxStr (l : List Str) : Str :=
  match l with
  | [] => []
  | x :: xs => xs.foldl (fun a b => if a < b then b else a) x

/-- `get_session_list()`: per (type, number) group — entry count, time
span, distinct-speaker count and the rendered `full_id`. -/
def get_session_list (db : Db) : List SessionInfo :=
  let keys := dedupFirst (db.entries.map sessionKey)
  (keys.insertionSort sessionKeyLe).map (fun k =>
    let group := db.entries.filter (fun e => sessionKey e == k)
    { session_type := k.1, session_number := k.2, entry_count := group.length,
      start_time := foldMinStr (group.map (·.timestamp)),
      end_time := foldMaxStr (group.map (·.timestamp)),
      speaker_count := (dedupFirst (group.map (·.speaker_name))).length,
      full_id := k.1 ++ '_' :: intToStr k.2 })

/-! ## The agent orchestrator (`run_agent.py`) -/

/-- Message roles of the conversation history. -/
inductive Role where
  | system
  | user
  | assistant
  | tool
deriving DecidableEq

/-- The pydantic `FinalAnswer` model of run_agent.py. -/
structure FinalAnswer where
  answer : String
  source_entry_ids : List Int
deriving DecidableEq

/-- Decoded arguments of one tool call.  `malformed` stands for a payload
whose `json.loads` fails or whose keyword arguments do not fit the tool
signature — in both cases Python raises inside the `try` block. -/
inductive ToolArgs where
  | malformed
  | searchArgs (keywords : Option (List Str)) (session_type : Option Str)
      (session_number : Option Int) (speaker_name : Option Str)
      (time_after : Option Str) (time_before : Option Str)
  | readArgs (entry_id : Int)
  | sessionsArgs
  | finalArgs (answer : String) (source_entry_ids : List Int)
deriving DecidableEq

/-- One tool call request emitted by the model. -/
structure ToolCall where
  id : String
  name : String
  args : ToolArgs
deriving DecidableEq

/-- One completion-endpoint response: optional text content plus tool
calls. -/
structure ModelResponse where
  content : Option String
  tool_calls : List ToolCall
deriving DecidableEq

instance exceptDecEq {ε α : Type} [DecidableEq ε] [DecidableEq α] :
    DecidableEq (Except ε α) := fun a b =>
  match a, b with
  | .error e, .error f =>
    if h : e = f then .isTrue (by rw [h]) else .isFalse (by intro hh; cases hh; exact h rfl)
  | .ok x, .ok y =>
    if h : x = y then .isTrue (by rw [h]) else .isFalse (by intro hh; cases hh; exact h rfl)
  | .error _, .ok _ => .isFalse (by intro hh; cases hh)
  | .ok _, .error _ => .isFalse (by intro hh; cases hh)

/-- The value computed by a successfully dispatched tool body.
`search` keeps the `Except` produced by `search_lectures`: the wrapper
`search_lecture_database` catches exceptions itself and returns
`[{"error": str(e)}]`, a non-empty list, in that case. -/
inductive ToolResult where
  | search (r : Except Str (List SearchResult))
  | read (r : Option Entry)
  | sessions (s : List SessionInfo)
  | finalAns (a : FinalAnswer)
deriving DecidableEq

/-- The decisiveness nudge appended to a tool message (lines 193-196). -/
inductive Guidance where
  | noGuidance
  | remindAnswer
  | notInDatabase
deriving DecidableEq

/-- Message content.  Tool messages carry the rendered result (plus nudge)
or an `Error: ...` rendering of a caught exception; other roles carry
plain text (`None` content allowed for assistant messages). -/
inductive MsgContent where
  | text (s : Option String)
  | toolOutput (r : ToolResult) (g : Guidance)
  | toolError
deriving DecidableEq

/-- One message of the conversation history. -/
structure Message where
  role : Role
  content : MsgContent
  name : Option String := none
  tool_call_id : Option String := none
  tool_calls : List ToolCall := []
deriving DecidableEq

/-- Mutable state of one run: history, optional final answer and the two
usage counters. -/
structure AgentState where
  messages : List Message
  final_answer : Option FinalAnswer
  search_count : Nat
  read_count : Nat
deriving DecidableEq

/-- The value returned by `run_agent_with_tools`. -/
structure RunResult where
  final_answer : Option FinalAnswer
  messages : List Message
  turns_used : Nat
deriving DecidableEq

/-- The completion endpoint, modelled as a deterministic function of the
history sent to it (`acompletion(model=..., messages=messages, ...)`). -/
abbrev Endpoint := List Message → ModelResponse

/-- The tool registry (`tools_by_name`). -/
def toolNames : List String :=
  ["search_lecture_database", "read_lecture", "get_available_sessions", "return_final_answer"]

/-- The `search_lecture_database` wrapper (lines 74-104): forwards to
`search_lectures` with a fixed `max_results=10` and default AND mode,
catching any exception into an error-dict result. -/
def search_lecture_database (db : Db) (keywords : Option (List Str))
    (session_type : Option Str) (session_number : Option Int) (speaker_name : Option Str)
    (time_after : Option Str) (time_before : Option Str) : Except Str (List SearchResult) :=
  search_lectures db keywords false session_type session_number speaker_name
    time_after time_before 10

/-- Dispatch one named tool on decoded arguments.  `none` models an
exception raised before or while calling the tool body (argument decode
failure or keyword mismatch); the four tool bodies themselves are total:
`search_lecture_database` catches internally, `read_lecture` returns
`None` for a missing id, and the other two cannot fail. -/
def callTool (db : Db) (name : String) (args : ToolArgs) : Option ToolResult :=
  match name, args with
  | "search_lecture_database", .searchArgs kw st sn sp ta tb =>
    some (.search (search_lecture_database db kw st sn sp ta tb))
  | "read_lecture", .readArgs i => some (.read (read_lecture db i))
  | "get_available_sessions", .sessionsArgs => some (.sessions (get_session_list db))
  | "return_final_answer", .finalArgs a ids => some (.finalAns ⟨a, ids⟩)
  | _, _ => none

/-- Python truthiness of a tool result (`not result`): empty list or
`None`. -/
def toolResultFalsy : ToolResult → Bool
  | .search (.ok rs) => rs.isEmpty
  | .search (.error _) => false
  | .read r => r.isNone
  | .sessions s => s.isEmpty
  | .finalAns _ => false

/-- `len(str(result)) > 10` (line 193).  Case by case: `str([])` and
`str(None)` have length ≤ 10; any non-empty list of result dicts, any
`LectureEntry(...)` repr, any non-empty session list, any error-dict list
`[{'error': ...}]` (the cap message alone is 45 characters) and any
`FinalAnswer` repr are longer than 10 characters. -/
def toolResultRenderLong : ToolResult → Bool
  | .search (.ok rs) => !rs.isEmpty
  | .search (.error _) => true
  | .read r => r.isSome
  | .sessions s => !s.isEmpty
  | .finalAns _ => true

/-- The nudge logic of lines 193-196, evaluated after the counters have
been incremented: `search_count >= 2` with a long rendering appends the
reminder, else `search_count >= 3` with a falsy result appends the
not-in-database instruction. -/
def guidanceFor (search_count : Nat) (r : ToolResult) : Guidance :=
  if search_count ≥ 2 && toolResultRenderLong r then .remindAnswer
  else if search_count ≥ 3 && toolResultFalsy r then .notInDatabase
  else .noGuidance

/-- The tool message appended on a successful call (lines 185-198). -/
def toolMessage (c : ToolCall) (r : ToolResult) (g : Guidance) : Message :=
  { role := .tool, content := .toolOutput r g, name := some c.name,
    tool_call_id := some c.id }

/-- The error message appended when dispatch raises (lines 209-217). -/
def toolErrorMessage (c : ToolCall) : Message :=
  { role := .tool, content := .toolError, name := some c.name, tool_call_id := some c.id }

/-- The tool-call loop of lines 165-217.  An unknown tool name falls
outside the `if tool_name in tools_by_name:` guard, which has no `else`:
the call is skipped with no message.  A dispatch exception appends an
error tool message.  A successful call bumps the counters, appends the
tool message (with nudge), and — for `return_final_answer` — stores the
final answer and `break`s out, leaving later sibling calls unprocessed. -/
def processCalls (db : Db) : AgentState → List ToolCall → AgentState
  | s, [] => s
  | s, c :: cs =>
    if toolNames.contains c.name then
      match callTool db c.name c.args with
      | none => processCalls db { s with messages := s.messages ++ [toolErrorMessage c] } cs
      | some r =>
        let sc := if c.name = "search_lecture_database" then s.search_count + 1
          else s.search_count
        let rc := if c.name = "read_lecture" then s.read_count + 1 else s.read_count
        let s' : AgentState :=
          { messages := s.messages ++ [toolMessage c r (guidanceFor sc r)],
            final_answer := s.final_answer, search_count := sc, read_count := rc }
        if c.name = "return_final_answer" then
          { s' with final_answer := match r with | .finalAns a => some a | _ => s.final_answer }
        else processCalls db s' cs
    else processCalls db s cs

/-- The assistant message recorded for a model response (lines 137-155). -/
def assistantMessage (resp : ModelResponse) : Message :=
  { role := .assistant, content := .text resp.content, tool_calls := resp.tool_calls }

/-- `MAX_TURNS` (run_agent.py, line 25). -/
def MAX_TURNS : Nat := 10

/-- The `for turn in range(MAX_TURNS)` loop (lines 124-220).  `fuel` is the
number of turns still allowed, `turn` the current 0-based index; the
returned `Nat` is `turn + 1` of the last executed turn (`turns_used`).
The loop breaks when the model sends no tool calls, or when a final
answer was recorded. -/
def agentLoop (db : Db) (endpoint : Endpoint) : Nat → Nat → AgentState → AgentState × Nat
  | 0, turn, s => (s, turn)
  | fuel + 1, turn, s =>
    let resp := endpoint s.messages
    let s1 := { s with messages := s.messages ++ [assistantMessage resp] }
    if resp.tool_calls.isEmpty then (s1, turn + 1)
    else
      let s2 := processCalls db s1 resp.tool_calls
      if s2.final_answer.isSome then (s2, turn + 1)
      else agentLoop db endpoint fuel (turn + 1) s2

/-- The system prompt of lines 40-66 (an opaque text payload: quotation
marks and contractions of the original prose are normalised, and the two
`{MAX_TURNS}` interpolations are rendered). -/
def systemPrompt : String :=
  "You are a lecture search agent. You are given a user query and a list of tools " ++
  "you can use to search lecture transcripts. Use the tools to search the lecture " ++
  "database and find the answer to the users query. The database contains " ++
  "transcripts from reinforcement learning lectures and office hours sessions. " ++
  "Each entry has a speaker, timestamp (HH:MM:SS format), content, session type, " ++
  "and session number. SEARCH STRATEGY: 1. Start with ONE targeted search using " ++
  "appropriate filters 2. Read only the MOST RELEVANT 3-5 entries from search " ++
  "results 3. If you have enough information to answer, provide the final answer " ++
  "immediately 4. If after 2-3 searches you find NO results, state that the " ++
  "information is not in the database 5. Be DECISIVE - do not keep searching " ++
  "endlessly. Either answer with what you found or state it is not available " ++
  "SEARCH FILTERS: - session_type: lecture or officehours - session_number: " ++
  "e.g., 2 for office hours 2 or lecture 2 - speaker_name: filter by specific " ++
  "speaker - time_after/time_before: filter by timestamp ranges (HH:MM:SS format) " ++
  "- keywords: search for specific terms in content IMPORTANT: - For queries " ++
  "about specific sessions, use session filters NOT keywords - For queries about " ++
  "specific times, use time filters NOT keywords - Timestamps: 00:10:00 = 10 " ++
  "minutes, 00:30:00 = 30 minutes, etc. - You have " ++ toString MAX_TURNS ++
  " turns maximum, but AIM TO ANSWER IN 2-3 TURNS"

/-- `run_agent_with_tools(question)` (lines 36-226): seed the history with
the system prompt and the question, run the bounded loop, and return the
final answer, the transcript and `turns_used`. -/
def run_agent_with_tools (db : Db) (endpoint : Endpoint) (question : String) : RunResult :=
  let s0 : AgentState :=
    { messages :=
        [{ role := .system, content := .text (some systemPrompt) },
         { role := .user, content := .text (some question) }],
      final_answer := none, search_count := 0, read_count := 0 }
  let out := agentLoop db endpoint MAX_TURNS 0 s0
  { final_answer := out.1.final_answer, messages := out.1.messages, turns_used := out.2 }

/-! ## Generic helper lemmas -/

theorem sorted_insertionSort_of {α : Type} (r : α → α → Prop) [DecidableRel r]
    (ht : ∀ a b, r a b ∨ r b a) (htr : ∀ a b c, r a b → r b c → r a c) (l : List α) :
    List.Sorted r (l.insertionSort r) := by
  letI : IsTotal α r := ⟨ht⟩
  letI : IsTrans α r := ⟨fun a b c => htr a b c⟩
  exact List.sorted_insertionSort r l

theorem keyLe_total {α β : Type} [LinearOrder β] (f : α → β) :
    ∀ a b, keyLe f a b ∨ keyLe f b a :=
  fun a b => le_total (f a) (f b)

theorem keyLe_trans {α β : Type} [LinearOrder β] (f : α → β) :
    ∀ a b c, keyLe f a b → keyLe f b c → keyLe f a c :=
  fun _ _ _ h1 h2 => le_trans h1 h2

theorem keyLexLe_total {α β : Type} [LinearOrder β] (f : α → β) (r : α → α → Prop)
    (hr : ∀ a b, r a b ∨ r b a) : ∀ a b, keyLexLe f r a b ∨ keyLexLe f r b a := by
  intro a b
  rcases lt_trichotomy (f a) (f b) with h | h | h
  · exact Or.inl (Or.inl h)
  · rcases hr a b with h2 | h2
    · exact Or.inl (Or.inr ⟨h, h2⟩)
    · exact Or.inr (Or.inr ⟨h.symm, h2⟩)
  · exact Or.inr (Or.inl h)

theorem keyLexLe_trans {α β : Type} [LinearOrder β] (f : α → β) (r : α → α → Prop)
    (hr : ∀ a b c, r a b → r b c → r a c) :
    ∀ a b c, keyLexLe f r a b → keyLexLe f r b c → keyLexLe f r a c := by
  intro a b c h1 h2
  rcases h1 with h1 | ⟨h1e, h1r⟩
  · rcases h2 with h2 | ⟨h2e, _⟩
    · exact Or.inl (lt_trans h1 h2)
    · exact Or.inl (h2e ▸ h1)
  · rcases h2 with h2 | ⟨h2e, h2r⟩
    · exact Or.inl (h1e ▸ h2)
    · exact Or.inr ⟨h1e.trans h2e, hr a b c h1r h2r⟩

theorem mem_dedupFirstAux {α : Type} [DecidableEq α] (x : α) :
    ∀ (l seen : List α), x ∈ dedupFirstAux seen l ↔ (x ∈ l ∧ x ∉ seen) := by
  intro l
  induction l with
  | nil => intro seen; simp [dedupFirstAux]
  | cons y ys ih =>
    intro seen
    by_cases hy : y ∈ seen
    · rw [dedupFirstAux, if_pos hy, ih]
      constructor
      · rintro ⟨h1, h2⟩; exact ⟨List.mem_cons_of_mem _ h1, h2⟩
      · rintro ⟨h1, h2⟩
        rcases List.mem_cons.mp h1 with rfl | h1
        · exact absurd hy h2
        · exact ⟨h1, h2⟩
    · rw [dedupFirstAux, if_neg hy]
      by_cases hxy : x = y
      · subst hxy
        simp [hy]
      · rw [List.mem_cons]
        constructor
        · rintro (rfl | h)
          · exact absurd rfl hxy
          · rcases (ih (y :: seen)).mp h with ⟨h1, h2⟩
            exact ⟨List.mem_cons_of_mem _ h1, fun hs => h2 (List.mem_cons_of_mem _ hs)⟩
        · rintro ⟨h1, h2⟩
          rcases List.mem_cons.mp h1 with rfl | h1
          · exact absurd rfl hxy
          · exact Or.inr ((ih (y :: seen)).mpr
              ⟨h1, fun hs => (List.mem_cons.mp hs).elim (fun he => hxy he) h2⟩)

theorem mem_dedupFirst {α : Type} [DecidableEq α] (x : α) (l : List α) :
    x ∈ dedupFirst l ↔ x ∈ l := by
  rw [dedupFirst, mem_dedupFirstAux]
  simp

theorem nodup_dedupFirstAux {α : Type} [DecidableEq α] :
    ∀ (l seen : List α), (dedupFirstAux seen l).Nodup := by
  intro l
  induction l with
  | nil => intro seen; simp [dedupFirstAux]
  | cons y ys ih =>
    intro seen
    by_cases hy : y ∈ seen
    · rw [dedupFirstAux, if_pos hy]; exact ih seen
    · rw [dedupFirstAux, if_neg hy]
      refine List.Nodup.cons ?_ (ih (y :: seen))
      intro hmem
      exact ((mem_dedupFirstAux y ys (y :: seen)).mp hmem).2 (List.mem_cons_self y seen)

theorem nodup_dedupFirst {α : Type} [DecidableEq α] (l : List α) : (dedupFirst l).Nodup :=
  nodup_dedupFirstAux l []

theorem splitOnP_chunk_chars {α : Type} (q : α → Bool) :
    ∀ (l : List α), ∀ t ∈ l.splitOnP q, ∀ c ∈ t, c ∈ l ∧ q c = false := by
  intro l
  induction l with
  | nil =>
    intro t ht c hc
    rw [List.splitOnP_nil] at ht
    rcases List.mem_singleton.mp ht with rfl
    cases hc
  | cons x xs ih =>
    intro t ht c hc
    rw [List.splitOnP_cons] at ht
    by_cases hx : q x
    · rw [if_pos hx] at ht
      rcases List.mem_cons.mp ht with rfl | ht
      · cases hc
      · rcases ih t ht c hc with ⟨h1, h2⟩
        exact ⟨List.mem_cons_of_mem _ h1, h2⟩
    · rw [if_neg hx] at ht
      cases hsp : xs.splitOnP q with
      | nil => exact absurd hsp (List.splitOnP_ne_nil q xs)
      | cons h0 rest =>
        rw [hsp] at ht
        rw [List.modifyHead_cons] at ht
        rcases List.mem_cons.mp ht with rfl | ht
        · rcases List.mem_cons.mp hc with rfl | hc
          · exact ⟨List.mem_cons_self _ _, Bool.of_not_eq_true hx⟩
          · have h0mem : h0 ∈ xs.splitOnP q := by rw [hsp]; exact List.mem_cons_self _ _
            rcases ih h0 h0mem c hc with ⟨h1, h2⟩
            exact ⟨List.mem_cons_of_mem _ h1, h2⟩
        · have htm : t ∈ xs.splitOnP q := by rw [hsp]; exact List.mem_cons_of_mem _ ht
          rcases ih t htm c hc with ⟨h1, h2⟩
          exact ⟨List.mem_cons_of_mem _ h1, h2⟩

theorem mem_splitTokens {p : Char → Bool} {l : List Char} {t : Str}
    (ht : t ∈ splitTokens p l) : t ≠ [] ∧ ∀ c ∈ t, p c = true ∧ c ∈ l := by
  rw [splitTokens, List.mem_filter] at ht
  rcases ht with ⟨hmem, hne⟩
  refine ⟨by simpa using hne, fun c hc => ?_⟩
  rcases splitOnP_chunk_chars _ l t hmem c hc with ⟨h1, h2⟩
  refine ⟨?_, h1⟩
  simpa using h2

theorem splitTokens_nil (p : Char → Bool) : splitTokens p [] = [] := rfl

theorem splitTokens_all_sat {p : Char → Bool} {w : Str} (hne : w ≠ [])
    (hall : ∀ c ∈ w, p c = true) : splitTokens p w = [w] := by
  rw [splitTokens, List.splitOnP_eq_single]
  · simp [hne]
  · intro x hx
    simp [hall x hx]

theorem splitTokens_append_sep {p : Char → Bool} {w : Str} {d : Char} (rest : List Char)
    (hne : w ≠ []) (hall : ∀ c ∈ w, p c = true) (hd : p d = false) :
    splitTokens p (w ++ d :: rest) = w :: splitTokens p rest := by
  rw [splitTokens, List.splitOnP_first _ _ (fun x hx => by simp [hall x hx]) d (by simp [hd])]
  simp [splitTokens, hne]

theorem splitTokens_joinSpace {p : Char → Bool} (hsp : p ' ' = false) :
    ∀ (E : List Str), (∀ w ∈ E, w ≠ [] ∧ ∀ c ∈ w, p c = true) →
      splitTokens p (joinSpace E) = E := by
  intro E
  induction E with
  | nil => intro _; rfl
  | cons w ws ih =>
    intro h
    rcases h w (List.mem_cons_self _ _) with ⟨hne, hall⟩
    cases ws with
    | nil =>
      have hj : joinSpace [w] = w := by
        simp [joinSpace, List.intercalate, List.intersperse]
      rw [hj]
      exact splitTokens_all_sat hne hall
    | cons w' ws' =>
      have hjoin : joinSpace (w :: w' :: ws') = w ++ ' ' :: joinSpace (w' :: ws') := by
        simp [joinSpace, List.intercalate, List.intersperse]
      rw [hjoin, splitTokens_append_sep _ hne hall hsp]
      rw [ih (fun x hx => h x (List.mem_cons_of_mem _ hx))]

theorem char_toNat_ofNat {n : Nat} (h : n.isValidChar) : (Char.ofNat n).toNat = n := by
  rw [Char.ofNat, dif_pos h]
  rfl

theorem toLower_idem (c : Char) : c.toLower.toLower = c.toLower := by
  by_cases h : c.toNat ≥ 65 ∧ c.toNat ≤ 90
  · have h1 : c.toLower = Char.ofNat (c.toNat + 32) := by
      unfold Char.toLower
      rw [if_pos h]
    have hv : (c.toNat + 32).isValidChar := Or.inl (by omega)
    have h2 : (Char.ofNat (c.toNat + 32)).toNat = c.toNat + 32 := char_toNat_ofNat hv
    rw [h1]
    unfold Char.toLower
    rw [if_neg (by rw [h2]; omega)]
  · have h1 : c.toLower = c := by
      unfold Char.toLower
      rw [if_neg h]
    rw [h1, h1]

/-! ## Concrete instances used by witnesses and counterexamples

The engine fields are instantiated with simple admissible behaviours:
term matching as substring containment of the content (FTS5 accepts at
least these rows) and `rank` as the rowid (bm25 ties broken by scan order
give exactly this shape on uniform content). -/

def mkEntry (i : Nat) (st : String) (sn : Int) (sp ts c : String) : Entry :=
  { id := i, session_type := st.toList, session_number := sn,
    speaker_name := sp.toList, timestamp := ts.toList, content := c.toList }

def sampleDb : Db :=
  { entries :=
      [mkEntry 1 "lecture" 1 "Prof" "00:05:00" "q learning uses a value function",
       mkEntry 2 "lecture" 1 "Prof" "00:06:00" "the value function is learned",
       mkEntry 3 "officehours" 2 "TA" "00:01:00" "gradient descent update rule"],
    ftsMatch := fun k e => decide (k <:+: e.content),
    rank := fun _ _ i => (i : Int),
    snippet := fun _ _ _ => [] }

/-! ## C2 — result-cap validation and bound -/

theorem length_limitRows_le {α : Type} {c : Int} (hc : 0 ≤ c) (l : List α) :
    ((limitRows c l).length : Int) ≤ c := by
  rw [limitRows, if_neg (by omega)]
  calc ((l.take c.toNat).length : Int)
      ≤ (c.toNat : Int) := by
        exact_mod_cast le_trans (by rw [List.length_take]; exact min_le_left _ _) le_rfl
    _ = c := Int.toNat_of_nonneg hc

theorem searchRows_length_le (db : Db) (kw : Option (List Str)) (mode : Bool)
    (st : Option Str) (sn : Option Int) (sp ta tb : Option Str) {c : Int} (hc : 0 ≤ c) :
    ((searchRows db kw mode st sn sp ta tb c).length : Int) ≤ c := by
  unfold searchRows
  cases h : keywordsTruthy kw with
  | some ks =>
    simp only [List.length_map]
    exact length_limitRows_le hc _
  | none =>
    simp only [List.length_map]
    exact length_limitRows_le hc _

/-- C2: for every result cap `c > 10`, `search_lectures` fails with the
`InvalidArgument` error (`ValueError`, raised before any query executes);
for every cap `c ∈ [1, 10]`, the returned list never has more than `c`
results. -/
theorem search_cap_validation (db : Db) (kw : Option (List Str)) (mode : Bool)
    (st : Option Str) (sn : Option Int) (sp ta tb : Option Str) (c : Int) :
    (c > 10 → search_lectures db kw mode st sn sp ta tb c = .error capErrorMsg) ∧
    (1 ≤ c → c ≤ 10 → ∀ rs, search_lectures db kw mode st sn sp ta tb c = .ok rs →
      (rs.length : Int) ≤ c) := by
  constructor
  · intro h
    rw [search_lectures, if_pos h]
  · intro h1 h2 rs hok
    rw [search_lectures, if_neg (by omega)] at hok
    cases hok
    exact searchRows_length_le db kw mode st sn sp ta tb (by omega)

theorem search_cap_validation_witness :
    search_lectures sampleDb none false none none none none none 11 = .error capErrorMsg ∧
    ((searchRows sampleDb none false none none none none none 5).length : Int) ≤ 5 :=
  ⟨(search_cap_validation sampleDb none false none none none none none 11).1 (by decide),
   (search_cap_validation sampleDb none false none none none none none 5).2 (by decide)
     (by decide) _ (by rfl)⟩

/-! ## C1 — the four-tier fallback contract -/

theorem search_lectures_ok (db : Db) (kw : Option (List Str)) (mode : Bool)
    (st : Option Str) (sn : Option Int) (sp ta tb : Option Str) {c : Int} (hc : c ≤ 10) :
    search_lectures db kw mode st sn sp ta tb c =
      .ok (searchRows db kw mode st sn sp ta tb c) := by
  rw [search_lectures, if_neg (by omega)]

/-- C1: for every question and optional session filters (at any cap within
the validated range, in particular the default 10), `search_with_fallback`
first extracts keywords; with no terms it returns `[]` immediately;
otherwise it attempts exactly four tiers in strict order — ALL-keyword
scoped, ANY-keyword scoped, ALL-keyword global, ANY-keyword global —
returns the first non-empty tier, and returns `[]` (the empty tier-4
result) when all four tiers are empty. -/
theorem fallback_four_tiers (db : Db) (q : Str) (st : Option Str) (sn : Option Int)
    (c : Int) (hc : c ≤ 10) :
    (extract_key_terms q = [] → search_with_fallback db q st sn c = .ok []) ∧
    (extract_key_terms q ≠ [] →
      search_with_fallback db q st sn c =
        .ok (let ks := extract_key_terms q
             let t1 := searchRows db (some ks) false st sn none none none c
             let t2 := searchRows db (some ks) true st sn none none none c
             let t3 := searchRows db (some ks) false none none none none none c
             let t4 := searchRows db (some ks) true none none none none none c
             if t1 ≠ [] then t1 else if t2 ≠ [] then t2 else if t3 ≠ [] then t3 else t4)) := by
  constructor
  · intro h
    rw [search_with_fallback]
    simp [h]
  · intro h
    have hne : (extract_key_terms q).isEmpty = false := by
      cases hq : extract_key_terms q with
      | nil => exact absurd hq h
      | cons a as => rfl
    rw [search_with_fallback]
    simp only [hne, Bool.false_eq_true, if_false,
      search_lectures_ok db _ _ _ _ _ _ _ hc]
    by_cases h1 : searchRows db (some (extract_key_terms q)) false st sn none none none c = []
    · by_cases h2 : searchRows db (some (extract_key_terms q)) true st sn none none none c = []
      · by_cases h3 :
          searchRows db (some (extract_key_terms q)) false none none none none none c = []
        · simp [h1, h2, h3]
        · simp [h1, h2, h3]
      · simp [h1, h2]
    · simp [h1]

theorem fallback_four_tiers_witness :
    extract_key_terms "What is the value function?".toList ≠ [] ∧
    search_with_fallback sampleDb "What is the value function?".toList none none 10 =
      .ok (let ks := extract_key_terms "What is the value function?".toList
           let t1 := searchRows sampleDb (some ks) false none none none none none 10
           let t2 := searchRows sampleDb (some ks) true none none none none none 10
           let t3 := searchRows sampleDb (some ks) false none none none none none 10
           let t4 := searchRows sampleDb (some ks) true none none none none none 10
           if t1 ≠ [] then t1 else if t2 ≠ [] then t2 else if t3 ≠ [] then t3 else t4) :=
  ⟨by decide,
   (fallback_four_tiers sampleDb "What is the value function?".toList none none 10
     (by decide)).2 (by decide)⟩

/-! ## C10 — cap validation happens only once keywords exist -/

/-- C10: `search_with_fallback` validates the result cap only when keyword
extraction yields at least one term: with no terms it returns `[]` without
raising, even for caps above 10; with at least one term and a cap above
10 the first tier raises `InvalidArgument` (`ValueError`), which
propagates out of the fallback instead of a result. -/
theorem fallback_cap_only_with_terms (db : Db) (q : Str) (st : Option Str)
    (sn : Option Int) (c : Int) :
    (extract_key_terms q = [] → search_with_fallback db q st sn c = .ok []) ∧
    (extract_key_terms q ≠ [] → c > 10 →
      search_with_fallback db q st sn c = .error capErrorMsg) := by
  constructor
  · intro h
    rw [search_with_fallback]
    simp [h]
  · intro h hc
    have hne : (extract_key_terms q).isEmpty = false := by
      cases hq : extract_key_terms q with
      | nil => exact absurd hq h
      | cons a as => rfl
    rw [search_with_fallback]
    simp only [hne, Bool.false_eq_true, if_false]
    rw [search_lectures, if_pos hc]

theorem fallback_cap_only_with_terms_witness :
    (extract_key_terms "   ".toList = [] ∧
      search_with_fallback sampleDb "   ".toList none none 99 = .ok []) ∧
    (extract_key_terms "value function".toList ≠ [] ∧
      search_with_fallback sampleDb "value function".toList none none 11 =
        .error capErrorMsg) :=
  ⟨⟨by decide,
    (fallback_cap_only_with_terms sampleDb "   ".toList none none 99).1 (by decide)⟩,
   ⟨by decide,
    (fallback_cap_only_with_terms sampleDb "value function".toList none none 11).2
      (by decide) (by decide)⟩⟩

/-! ## C3 — monotonicity of fallback escalation -/

/-- Eleven-entry database for the single query term `alpha`: rows 1-10
(session 2) each contain the four-token content `alpha alpha alpha alpha`
(term frequency 4), row 11 (session 1) contains the four-token content
`alpha beta gamma delta` (term frequency 1).  The bm25 contribution of one
term at a fixed document length is strictly increasing in its frequency
(`tf·(k1+1)/(tf + k1·norm)` with the same `norm` for equal-length rows),
so the engine necessarily scores the identical rows 1-10 equal to each
other and strictly better than row 11 — no IDF or length-normalisation
convention is involved, since all rows have the same token count and the
comparison concerns a single term.  The `rank` field (0 for rows 1-10,
1 for row 11, lower = better) is exactly that ordering; the tie among
rows 1-10 is resolved by the model's rowid scan order. -/
def cexDb : Db :=
  { entries :=
      [mkEntry 1 "lecture" 2 "Prof" "00:01:00" "alpha alpha alpha alpha",
       mkEntry 2 "lecture" 2 "Prof" "00:02:00" "alpha alpha alpha alpha",
       mkEntry 3 "lecture" 2 "Prof" "00:03:00" "alpha alpha alpha alpha",
       mkEntry 4 "lecture" 2 "Prof" "00:04:00" "alpha alpha alpha alpha",
       mkEntry 5 "lecture" 2 "Prof" "00:05:00" "alpha alpha alpha alpha",
       mkEntry 6 "lecture" 2 "Prof" "00:06:00" "alpha alpha alpha alpha",
       mkEntry 7 "lecture" 2 "Prof" "00:07:00" "alpha alpha alpha alpha",
       mkEntry 8 "lecture" 2 "Prof" "00:08:00" "alpha alpha alpha alpha",
       mkEntry 9 "lecture" 2 "Prof" "00:09:00" "alpha alpha alpha alpha",
       mkEntry 10 "lecture" 2 "Prof" "00:10:00" "alpha alpha alpha alpha",
       mkEntry 11 "lecture" 1 "Prof" "00:11:00" "alpha beta gamma delta"],
    ftsMatch := fun k e => decide (k <:+: e.content),
    rank := fun _ _ i => if i = 11 then 1 else 0,
    snippet := fun _ _ _ => [] }

def kws3 : List Str := ["alpha".toList]

/-- C3 counterexample: with the keyword set `[alpha]` and the session
filter `session_number = 1`, the scoped tier-1 ALL-mode search returns
exactly row 11, the only matching row of that session.  The filter-cleared
tier-3 search matches all eleven rows; the ten rows with term frequency 4
rank strictly better than row 11 (term frequency 1, same length), and
`LIMIT 10` truncates row 11 away.  So the returned global (tier-3) set is
not a superset of the returned scoped (tier-1) set, refuting the claimed
monotonicity of the returned result sets.  (With a single keyword the ALL
and ANY queries coincide, so the same instance also refutes tier-4 ⊇
tier-2.) -/
theorem fallback_monotonic_counterexample :
    ((search_lectures cexDb (some kws3) false none (some 1) none none none 10).map
        (List.map SearchResult.entry_id) = Except.ok [11]) ∧
    ((search_lectures cexDb (some kws3) false none none none none none 10).map
        (List.map SearchResult.entry_id) = Except.ok [1, 2, 3, 4, 5, 6, 7, 8, 9, 10]) ∧
    ¬ (∀ r ∈ searchRows cexDb (some kws3) false none (some 1) none none none 10,
        r ∈ searchRows cexDb (some kws3) false none none none none none 10) :=
  ⟨by decide, by decide, by decide⟩

/-- The row set matched by one fallback tier before `ORDER BY rank` and
`LIMIT` are applied (the fallback passes no speaker or time filters). -/
def matchedEntries (db : Db) (ks : List Str) (use_or_search : Bool)
    (session_type : Option Str) (session_number : Option Int) : List Entry :=
  db.entries.filter (fun e =>
    entryMatchesQuery db (expandSearchKeywords ks) use_or_search e &&
    entryPassesFilters session_type session_number none none none e)

theorem entryPassesFilters_none (e : Entry) :
    entryPassesFilters none none none none none e = true := rfl

theorem expandSearchKeywords_ne_nil {ks : List Str} (h : ks ≠ []) :
    expandSearchKeywords ks ≠ [] := by
  cases ks with
  | nil => exact absurd rfl h
  | cons k ks' =>
    intro hcon
    have hmem : strLower k ∈ expandSearchKeywords (k :: ks') := by
      rw [expandSearchKeywords, mem_dedupFirst]
      refine List.mem_flatMap.mpr ⟨k, List.mem_cons_self _ _, ?_⟩
      rw [searchKeywordVariants]
      exact List.mem_cons_self _ _
    rw [hcon] at hmem
    cases hmem

theorem all_imp_any {α : Type} {l : List α} (h : l ≠ []) (f : α → Bool)
    (hall : l.all f = true) : l.any f = true := by
  cases l with
  | nil => exact absurd rfl h
  | cons k ks =>
    rw [List.all_cons, Bool.and_eq_true] at hall
    rw [List.any_cons, hall.1, Bool.true_or]

/-- C3 (amended): fallback escalation is monotonic on the row sets each
tier matches, i.e. before the engine's rank ordering and the result cap
truncate them to at most `max_results` rows: for a fixed non-empty keyword
set and fixed filters, every row matched in ALL mode is matched in ANY
mode under the same filters, and every row matched with the session
filters applied is matched with the filters cleared.  (On the *returned*,
capped lists the superset relation fails; see the counterexample.) -/
theorem fallback_monotonic_match_sets (db : Db) (ks : List Str) (hks : ks ≠ [])
    (st : Option Str) (sn : Option Int) :
    (∀ e ∈ matchedEntries db ks false st sn, e ∈ matchedEntries db ks true st sn) ∧
    (∀ e ∈ matchedEntries db ks false st sn, e ∈ matchedEntries db ks false none none) ∧
    (∀ e ∈ matchedEntries db ks true st sn, e ∈ matchedEntries db ks true none none) := by
  have huks := expandSearchKeywords_ne_nil hks
  refine ⟨?_, ?_, ?_⟩ <;> intro e he <;>
    rw [matchedEntries, List.mem_filter, Bool.and_eq_true] at he <;>
    rcases he with ⟨hmem, hq, hf⟩ <;>
    rw [matchedEntries, List.mem_filter, Bool.and_eq_true]
  · refine ⟨hmem, ?_, hf⟩
    have hall : (expandSearchKeywords ks).all (fun k => db.ftsMatch k e) = true := hq
    exact all_imp_any huks _ hall
  · exact ⟨hmem, hq, entryPassesFilters_none e⟩
  · exact ⟨hmem, hq, entryPassesFilters_none e⟩

theorem fallback_monotonic_match_sets_witness :
    mkEntry 11 "lecture" 1 "Prof" "00:11:00" "alpha beta gamma delta" ∈
      matchedEntries cexDb kws3 false none none :=
  (fallback_monotonic_match_sets cexDb kws3 (by decide) none (some 1)).2.1 _ (by decide)

/-! ## C6 — result ordering -/

/-- Strictly better rank, ties broken by ascending entry id (lower rank
value = higher relevance, so this is descending relevance). -/
abbrev resultRankLt (db : Db) (uks : List Str) (mode : Bool) :
    SearchResult → SearchResult → Prop :=
  keyLexLe (fun r => db.rank uks mode r.entry_id) (keyLt (·.entry_id))

/-- Strict (session kind, session number, timestamp) order, ties broken by
ascending entry id. -/
abbrev resultChronoLt : SearchResult → SearchResult → Prop :=
  keyLexLe (·.session_type)
    (keyLexLe (·.session_number) (keyLexLe (·.timestamp) (keyLt (·.entry_id))))

theorem pairwise_limitRows {α : Type} {r : α → α → Prop} {l : List α} (c : Int)
    (h : l.Pairwise r) : (limitRows c l).Pairwise r := by
  rw [limitRows]
  split
  · exact h
  · exact h.sublist (List.take_sublist _ _)

theorem rankLe_strict {db : Db} {uks : List Str} {mode : Bool} {a b : Entry}
    (h : entryRankLe db uks mode a b) (hne : a.id ≠ b.id) :
    keyLexLe (fun e : Entry => db.rank uks mode e.id) (keyLt (·.id)) a b := by
  rcases h with h | ⟨h1, h2⟩
  · exact Or.inl h
  · exact Or.inr ⟨h1, lt_of_le_of_ne h2 hne⟩

theorem chronoLe_strict {a b : Entry} (h : entryChronoLe a b) (hne : a.id ≠ b.id) :
    keyLexLe (·.session_type)
      (keyLexLe (·.session_number) (keyLexLe (·.timestamp) (keyLt (·.id)))) a b := by
  rcases h with h | ⟨h1, h⟩
  · exact Or.inl h
  · refine Or.inr ⟨h1, ?_⟩
    rcases h with h | ⟨h2, h⟩
    · exact Or.inl h
    · refine Or.inr ⟨h2, ?_⟩
      rcases h with h | ⟨h3, h⟩
      · exact Or.inl h
      · exact Or.inr ⟨h3, lt_of_le_of_ne h hne⟩

theorem sorted_rows_pairwise {db : Db} (hids : (db.entries.map (·.id)).Nodup)
    (p : Entry → Bool) (r : Entry → Entry → Prop) [DecidableRel r]
    (ht : ∀ a b, r a b ∨ r b a) (htr : ∀ a b c, r a b → r b c → r a c) :
    ((db.entries.filter p).insertionSort r).Pairwise
      (fun a b => r a b ∧ a.id ≠ b.id) := by
  have hsorted : List.Sorted r ((db.entries.filter p).insertionSort r) :=
    sorted_insertionSort_of r ht htr _
  have h1 : ((db.entries.filter p).map (·.id)).Nodup :=
    hids.sublist (List.Sublist.map _ (List.filter_sublist _))
  have h2 : List.Perm ((db.entries.filter p).insertionSort r) (db.entries.filter p) :=
    List.perm_insertionSort r _
  have h3 : (((db.entries.filter p).insertionSort r).map (·.id)).Nodup :=
    ((h2.map _).nodup_iff).mpr h1
  have h4 : ((db.entries.filter p).insertionSort r).Pairwise (fun a b => a.id ≠ b.id) :=
    List.pairwise_map.mp h3
  exact hsorted.and h4

/-- C6: with a well-formed store (distinct rowids) and keywords supplied,
`search_lectures` returns its rows ordered by strictly increasing rank
value — i.e. descending relevance — with rank ties broken by ascending
entry id; with no keywords, rows are ordered by strictly increasing
(session kind, session number, timestamp), ties broken by ascending
entry id. -/
theorem search_ordering (db : Db) (hids : (db.entries.map (·.id)).Nodup)
    (ks : List Str) (hks : ks ≠ []) (mode : Bool) (st : Option Str) (sn : Option Int)
    (sp ta tb : Option Str) (c : Int) :
    (searchRows db (some ks) mode st sn sp ta tb c).Pairwise
      (resultRankLt db (expandSearchKeywords ks) mode) ∧
    (searchRows db none mode st sn sp ta tb c).Pairwise resultChronoLt := by
  constructor
  · obtain ⟨k, ks', rfl⟩ : ∃ k ks', ks = k :: ks' := by
      cases ks with
      | nil => exact absurd rfl hks
      | cons k ks' => exact ⟨k, ks', rfl⟩
    show (List.map _ (limitRows c _)).Pairwise _
    apply List.pairwise_map.mpr
    apply pairwise_limitRows
    have hp := sorted_rows_pairwise hids
      (fun e => entryMatchesQuery db (expandSearchKeywords (k :: ks')) mode e &&
        entryPassesFilters st sn sp ta tb e)
      (entryRankLe db (expandSearchKeywords (k :: ks')) mode)
      (keyLexLe_total _ _ (keyLe_total _))
      (keyLexLe_trans _ _ (keyLe_trans _))
    exact hp.imp (fun hab => rankLe_strict hab.1 hab.2)
  · show (List.map _ (limitRows c _)).Pairwise _
    apply List.pairwise_map.mpr
    apply pairwise_limitRows
    have hp := sorted_rows_pairwise hids
      (entryPassesFilters st sn sp ta tb)
      entryChronoLe
      (keyLexLe_total _ _ (keyLexLe_total _ _ (keyLexLe_total _ _ (keyLe_total _))))
      (keyLexLe_trans _ _ (keyLexLe_trans _ _ (keyLexLe_trans _ _ (keyLe_trans _))))
    exact hp.imp (fun hab => chronoLe_strict hab.1 hab.2)

theorem search_ordering_witness :
    (sampleDb.entries.map (·.id)).Nodup ∧
    (searchRows sampleDb (some ["value".toList]) false none none none none none 10).Pairwise
      (resultRankLt sampleDb (expandSearchKeywords ["value".toList]) false) ∧
    (searchRows sampleDb none false none none none none none 10).Pairwise resultChronoLt :=
  ⟨by decide,
   (search_ordering sampleDb (by decide) ["value".toList] (by decide) false none none
     none none none 10).1,
   (search_ordering sampleDb (by decide) ["value".toList] (by decide) false none none
     none none none 10).2⟩

/-! ## C7 — context windows -/

def ctxDb : Db :=
  { entries :=
      [mkEntry 1 "lecture" 1 "Prof" "00:01:00" "hello",
       mkEntry 2 "lecture" 1 "Prof" "00:02:00" "world",
       mkEntry 3 "lecture" 1 "Prof" "00:03:00" "again",
       mkEntry 4 "lecture" 2 "Prof" "00:01:00" "other session"],
    ftsMatch := fun k e => decide (k <:+: e.content),
    rank := fun _ _ i => (i : Int),
    snippet := fun _ _ _ => [] }

/-- C7 counterexample: the claim quantifies over *every* window size, but
for a negative window (`context_size = -1`, a legal Python `int`
argument) the slice `[ti+1 : ti]` is empty, so the returned sequence
exists but does not include the target entry, and its length `0` exceeds
the claimed bound `2*(-1)+1 = -1`. -/
theorem context_window_counterexample :
    (∃ e ∈ ctxDb.entries, (e.id : Int) = 1) ∧
    get_session_context ctxDb 1 (-1) = [] ∧
    ¬ (((get_session_context ctxDb 1 (-1)).length : Int) ≤ 2 * (-1) + 1) :=
  ⟨by decide, by decide, by decide⟩

theorem lastMatchIdx_sound (tid : Int) :
    ∀ (l : List Entry) (j : Nat), lastMatchIdx tid l = some j →
      ∃ h : j < l.length, ((l.get ⟨j, h⟩).id : Int) = tid := by
  intro l
  induction l with
  | nil => intro j h; cases h
  | cons y ys ih =>
    intro j h
    rw [lastMatchIdx] at h
    cases hrec : lastMatchIdx tid ys with
    | some j' =>
      rw [hrec] at h
      cases h
      obtain ⟨hlt, hid⟩ := ih j' hrec
      exact ⟨Nat.succ_lt_succ hlt, hid⟩
    | none =>
      rw [hrec] at h
      by_cases hy : ((y.id : Int) == tid) = true
      · rw [if_pos hy] at h
        cases h
        exact ⟨Nat.succ_pos _, by simpa using hy⟩
      · rw [if_neg hy] at h
        cases h

theorem lastMatchIdx_isSome (tid : Int) :
    ∀ (l : List Entry), (∃ x ∈ l, (x.id : Int) = tid) →
      (lastMatchIdx tid l).isSome := by
  intro l
  induction l with
  | nil => rintro ⟨x, hx, _⟩; cases hx
  | cons y ys ih =>
    rintro ⟨x, hx, hxid⟩
    rw [lastMatchIdx]
    cases hrec : lastMatchIdx tid ys with
    | some j => rfl
    | none =>
      rcases List.mem_cons.mp hx with rfl | hx
      · rw [if_pos (by simpa using hxid)]
        rfl
      · have := ih ⟨x, hx, hxid⟩
        rw [hrec] at this
        cases this

theorem pySlice_eq {α : Type} (l : List α) (a b : Int) (ha0 : 0 ≤ a) (han : a ≤ l.length)
    (hb0 : 0 ≤ b) (hbn : b ≤ (l.length : Int)) :
    pySlice l a b = (l.take b.toNat).drop a.toNat := by
  unfold pySlice
  rw [if_neg (by omega), if_neg (by omega), min_eq_left han, min_eq_left hbn]

theorem nodup_ids_sorted_filter {db : Db} (hids : (db.entries.map (·.id)).Nodup)
    (p : Entry → Bool) (r : Entry → Entry → Prop) [DecidableRel r] :
    (((db.entries.filter p).insertionSort r).map (·.id)).Nodup := by
  have h1 : ((db.entries.filter p).map (·.id)).Nodup :=
    hids.sublist (List.Sublist.map _ (List.filter_sublist _))
  have h2 : List.Perm ((db.entries.filter p).insertionSort r) (db.entries.filter p) :=
    List.perm_insertionSort r _
  exact ((h2.map _).nodup_iff).mpr h1

/-- C7 (amended): for every entry id and every *non-negative* window size
`w` (the source accepts negative Python ints, for which the slice may be
empty; see the counterexample), `get_session_context` with a well-formed
store returns a sequence that includes the target entry, has length at
most `2*w + 1`, is sorted by timestamp ascending, and contains only
entries of the target's session; a missing id yields `[]` rather than a
failure. -/
theorem context_window_amended (db : Db) (hids : (db.entries.map (·.id)).Nodup)
    (tid : Int) (w : Int) (hw : 0 ≤ w) :
    ((∀ x ∈ db.entries, (x.id : Int) ≠ tid) → get_session_context db tid w = []) ∧
    (∀ e ∈ db.entries, (e.id : Int) = tid →
      e ∈ get_session_context db tid w ∧
      ((get_session_context db tid w).length : Int) ≤ 2 * w + 1 ∧
      (get_session_context db tid w).Pairwise (fun a b => a.timestamp ≤ b.timestamp) ∧
      ∀ x ∈ get_session_context db tid w,
        x.session_type = e.session_type ∧ x.session_number = e.session_number) := by
  constructor
  · intro h
    have hfind : db.entries.find? (fun x => (x.id : Int) == tid) = none :=
      List.find?_eq_none.mpr (fun x hx => by simpa using h x hx)
    unfold get_session_context
    rw [hfind]
  · intro e he hid
    -- the first query finds exactly `e`
    cases hfind : db.entries.find? (fun x => (x.id : Int) == tid) with
    | none =>
      exact absurd (List.find?_eq_none.mp hfind e he) (by simpa using hid)
    | some tgt =>
      have htgtmem : tgt ∈ db.entries := List.mem_of_find?_eq_some hfind
      have htgtid : (tgt.id : Int) = tid := by simpa using List.find?_some hfind
      have htgt_e : tgt = e :=
        List.inj_on_of_nodup_map hids htgtmem he (by omega)
      subst htgt_e
      -- the ordered session list
      set q : Entry → Bool := fun x =>
        x.session_type == tgt.session_type && x.session_number == tgt.session_number with hq
      set L : List Entry := (db.entries.filter q).insertionSort entryTsLe with hL
      have heL : tgt ∈ L := by
        rw [hL, List.mem_insertionSort, List.mem_filter]
        exact ⟨htgtmem, by simp [hq]⟩
      have hLids : (L.map (·.id)).Nodup := nodup_ids_sorted_filter hids q entryTsLe
      have hLsorted : L.Pairwise entryTsLe :=
        sorted_insertionSort_of entryTsLe
          (keyLexLe_total _ _ (keyLe_total _))
          (keyLexLe_trans _ _ (keyLe_trans _)) _
      obtain ⟨ti, hlmi⟩ := Option.isSome_iff_exists.mp
        (lastMatchIdx_isSome tid L ⟨tgt, heL, htgtid⟩)
      obtain ⟨hti, htiid⟩ := lastMatchIdx_sound tid L ti hlmi
      have hLti : L.get ⟨ti, hti⟩ = tgt :=
        List.inj_on_of_nodup_map hLids (L.get_mem _ _) heL (by omega)
      -- the window bounds
      have hgsc : get_session_context db tid w =
          (L.take (min (L.length : Int) ((ti : Int) + w + 1)).toNat).drop
            (max 0 ((ti : Int) - w)).toNat := by
        unfold get_session_context
        rw [hfind]
        simp only [← hq, ← hL]
        rw [hlmi]
        exact pySlice_eq L _ _ (le_max_left 0 _) (by omega) (by omega) (min_le_left _ _)
      rw [hgsc]
      set a : Int := max 0 ((ti : Int) - w) with ha
      set b : Int := min (L.length : Int) ((ti : Int) + w + 1) with hb
      have ha0 : 0 ≤ a := le_max_left 0 _
      have haw : (ti : Int) - w ≤ a := le_max_right 0 _
      have hati : a ≤ (ti : Int) := by omega
      have hbti : (ti : Int) < b := by
        rw [hb]
        apply lt_min
        · exact_mod_cast hti
        · omega
      have hbn : b ≤ (L.length : Int) := min_le_left _ _
      have hbw : b ≤ (ti : Int) + w + 1 := min_le_right _ _
      refine ⟨?_, ?_, ?_, ?_⟩
      · -- the target entry is inside the slice
        have hidx : ti - a.toNat < ((L.take b.toNat).drop a.toNat).length := by
          rw [List.length_drop, List.length_take]
          omega
        have hval : ((L.take b.toNat).drop a.toNat).get ⟨ti - a.toNat, hidx⟩ = tgt := by
          rw [List.get_eq_getElem, List.getElem_drop, List.getElem_take]
          have harith : a.toNat + (ti - a.toNat) = ti := by omega
          simp only [harith]
          rw [← hLti]
          simp [List.get_eq_getElem]
        exact hval ▸ List.get_mem _ _ _
      · -- length bound
        rw [List.length_drop, List.length_take]
        omega
      · -- sorted by timestamp
        have hsub : List.Sublist ((L.take b.toNat).drop a.toNat) L :=
          ((List.drop_sublist _ _).trans (List.take_sublist _ _))
        refine (hLsorted.sublist hsub).imp ?_
        intro x y hxy
        rcases hxy with h | ⟨h1, _⟩
        · exact le_of_lt h
        · exact le_of_eq h1
      · -- only entries of the target's session
        intro x hx
        have hxL : x ∈ L :=
          ((List.drop_sublist _ _).trans (List.take_sublist _ _)).subset hx
        rw [hL, List.mem_insertionSort, List.mem_filter] at hxL
        have := hxL.2
        rw [hq, Bool.and_eq_true, beq_iff_eq, beq_iff_eq] at this
        exact this

theorem context_window_amended_witness :
    (mkEntry 2 "lecture" 1 "Prof" "00:02:00" "world" ∈ ctxDb.entries) ∧
    mkEntry 2 "lecture" 1 "Prof" "00:02:00" "world" ∈ get_session_context ctxDb 2 1 ∧
    ((get_session_context ctxDb 2 1).length : Int) ≤ 2 * 1 + 1 :=
  ⟨by decide,
   ((context_window_amended ctxDb (by decide) 2 1 (by decide)).2
     (mkEntry 2 "lecture" 1 "Prof" "00:02:00" "world") (by decide) (by decide)).1,
   (((context_window_amended ctxDb (by decide) 2 1 (by decide)).2
     (mkEntry 2 "lecture" 1 "Prof" "00:02:00" "world") (by decide) (by decide)).2).1⟩

/-! ## C8 — the keyword-extraction algorithm -/

/-- The variant step as §4.2 of the spec words it, read literally: strip a
trailing `-ing` when the stem (the token minus the suffix) exceeds 4
characters, and strip a trailing `-ed` / `-ies` under the analogous
stem-length guard. -/
def claimTokenVariants (t : Str) : List Str :=
  [t] ++
    (if strEndsWith t ['i', 'n', 'g'] && decide (t.length - 3 > 4) then [dropSuffix t 3]
    else []) ++
    (if strEndsWith t ['e', 'd'] && decide (t.length - 2 > 4) then [dropSuffix t 2]
    else []) ++
    (if strEndsWith t ['i', 'e', 's'] && decide (t.length - 3 > 4) then [dropSuffix t 3]
    else [])

/-- The extraction pipeline with the claim's variant rules. -/
def claimExtract (q : Str) : List Str :=
  dedupFirst (((splitTokens isWordChar (strLower q)).filter
    (fun w => !stopWords.contains w && decide (w.length > 2))).flatMap claimTokenVariants)

/-- C8 counterexample: on `"managed"` the code emits *two* `-ed` variants,
`manag` (`term[:-2]`) and `manage` (`term[:-1]`), while the claimed rule
set emits only the `-ed`-stripped `manag`; the claimed `-ies` rule does
not exist in `extract_key_terms` at all, and the claimed stem-length
guards differ from the code's `len(term) > 5` / `len(term) > 4`. -/
theorem extract_terms_counterexample :
    extract_key_terms "managed".toList =
      ["managed".toList, "manag".toList, "manage".toList] ∧
    claimExtract "managed".toList = ["managed".toList, "manag".toList] ∧
    extract_key_terms "managed".toList ≠ claimExtract "managed".toList :=
  ⟨by decide, by decide, by decide⟩

/-- First-occurrence deduplication, spec-style: keep the head, delete its
later duplicates, recurse. -/
def specDedup : List Str → List Str
  | [] => []
  | x :: xs => x :: specDedup (xs.filter (fun y => y != x))
termination_by l => l.length
decreasing_by
  simpa using Nat.lt_succ_of_le (List.length_filter_le _ _)

/-- The variant step as the amended claim words it, with the two suffix
rules as independent emissions (a token cannot end in both `ing` and
`ed`, so this agrees with the code's `elif`). -/
def specTokenVariants (t : Str) : List Str :=
  [t] ++
    (if strEndsWith t ['i', 'n', 'g'] && decide (t.length > 5) then [dropSuffix t 3]
    else []) ++
    (if strEndsWith t ['e', 'd'] && decide (t.length > 4) then
      [dropSuffix t 2, dropSuffix t 1]
    else [])

/-- The full extraction pipeline as the amended claim describes it. -/
def specExtract (q : Str) : List Str :=
  specDedup (((splitTokens isWordChar (strLower q)).filter
    (fun w => !stopWords.contains w && decide (w.length > 2))).flatMap specTokenVariants)

theorem not_ing_and_ed {t : Str} (hg : strEndsWith t ['i', 'n', 'g'] = true)
    (hd : strEndsWith t ['e', 'd'] = true) : False := by
  rw [strEndsWith, List.isSuffixOf_iff_suffix] at hg hd
  rcases List.suffix_or_suffix_of_suffix hg hd with h | h
  · rcases h with ⟨u, hu⟩
    have : u.length + 3 = 2 := by simpa using congrArg List.length hu
    omega
  · rcases h with ⟨u, hu⟩
    have h2 : u ++ ['e', 'd'] = ['i', 'n', 'g'] := hu
    have h3 : u.length + 2 = 3 := by simpa using congrArg List.length hu
    have h4 : u.length = 1 := by omega
    cases u with
    | nil => cases h3
    | cons a u' =>
      cases u' with
      | nil => cases h2
      | cons b u'' => simp at h3

theorem extractVariants_eq_spec (t : Str) : extractVariants t = specTokenVariants t := by
  rw [extractVariants, specTokenVariants]
  by_cases hg : strEndsWith t ['i', 'n', 'g'] = true
  · by_cases hd : strEndsWith t ['e', 'd'] = true
    · exact absurd hd (fun hd => not_ing_and_ed hg hd)
    · simp [hg, hd]
  · simp [hg]

theorem dedupFirstAux_eq_specDedup :
    ∀ (l seen : List Str), dedupFirstAux seen l =
      specDedup (l.filter (fun y => decide (y ∉ seen))) := by
  intro l
  induction l with
  | nil => intro seen; simp [dedupFirstAux, specDedup]
  | cons x xs ih =>
    intro seen
    by_cases hx : x ∈ seen
    · rw [dedupFirstAux, if_pos hx, List.filter_cons, if_neg (by simp [hx])]
      exact ih seen
    · rw [dedupFirstAux, if_neg hx, List.filter_cons, if_pos (by simp [hx]), specDedup,
        List.filter_filter]
      have hpred : ∀ y ∈ xs,
          ((y != x) && decide (y ∉ seen)) = decide (y ∉ x :: seen) := by
        intro y _
        by_cases h1 : y ∈ seen <;> by_cases h2 : y = x <;> simp [h1, h2]
      rw [List.filter_congr hpred]
      rw [ih (x :: seen)]

/-- C8 (amended): `extract_key_terms` returns the distinct lowercase terms
of the question in first-occurrence order: tokenize on word boundaries,
drop stop-words and tokens of length ≤ 2, and for each surviving token
emit the token itself, then `term[:-3]` when it ends in `-ing` and is
longer than 5 characters, else both `term[:-2]` and `term[:-1]` when it
ends in `-ed` and is longer than 4 characters (there is no `-ies` rule),
finally deduplicating while preserving first occurrence; the output is
duplicate-free. -/
theorem extract_terms_spec (q : Str) :
    extract_key_terms q = specExtract q ∧ (extract_key_terms q).Nodup := by
  constructor
  · rw [extract_key_terms, specExtract, dedupFirst, dedupFirstAux_eq_specDedup]
    have h1 : ∀ y ∈ ((splitTokens isWordChar (strLower q)).filter
        (fun w => !stopWords.contains w && decide (w.length > 2))).flatMap extractVariants,
        (decide (y ∉ ([] : List Str))) = true := by
      intro y _
      simp
    rw [List.filter_congr h1, List.filter_true]
    have h2 : ((splitTokens isWordChar (strLower q)).filter
        (fun w => !stopWords.contains w && decide (w.length > 2))).flatMap extractVariants =
        ((splitTokens isWordChar (strLower q)).filter
        (fun w => !stopWords.contains w && decide (w.length > 2))).flatMap
          specTokenVariants := by
      rw [funext extractVariants_eq_spec]
    rw [h2]
  · exact nodup_dedupFirst _

/-! ## C9 — behaviour of extraction on its own output -/

/-- C9 counterexample: `extract("speeding")` = `[speeding, speed]`, but
re-extracting the joined output stems `speed` again (`-ed` rule) into
`spe` and `spee`, which are not in the original output — the claimed
subset relation fails. -/
theorem extract_idempotent_counterexample :
    extract_key_terms "speeding".toList = ["speeding".toList, "speed".toList] ∧
    extract_key_terms (joinSpace (extract_key_terms "speeding".toList)) =
      ["speeding".toList, "speed".toList, "spe".toList, "spee".toList] ∧
    ¬ (∀ x ∈ extract_key_terms (joinSpace (extract_key_terms "speeding".toList)),
        x ∈ extract_key_terms "speeding".toList) :=
  ⟨by decide, by decide, by decide⟩

theorem joinSpace_cons_cons (w w' : Str) (ws : List Str) :
    joinSpace (w :: w' :: ws) = w ++ ' ' :: joinSpace (w' :: ws) := by
  simp [joinSpace, List.intercalate, List.intersperse]

theorem joinSpace_chars :
    ∀ (L : List Str) (c : Char), c ∈ joinSpace L → (∃ w ∈ L, c ∈ w) ∨ c = ' ' := by
  intro L
  induction L with
  | nil =>
    intro c hc
    simp [joinSpace, List.intercalate] at hc
  | cons w ws ih =>
    cases ws with
    | nil =>
      intro c hc
      have hj : joinSpace [w] = w := by simp [joinSpace, List.intercalate, List.intersperse]
      rw [hj] at hc
      exact Or.inl ⟨w, List.mem_cons_self _ _, hc⟩
    | cons w' ws' =>
      intro c hc
      rw [joinSpace_cons_cons] at hc
      rcases List.mem_append.mp hc with h | h
      · exact Or.inl ⟨w, List.mem_cons_self _ _, h⟩
      · rcases List.mem_cons.mp h with rfl | h
        · exact Or.inr rfl
        · rcases ih c h with ⟨x, hx1, hx2⟩ | h
          · exact Or.inl ⟨x, List.mem_cons_of_mem _ hx1, hx2⟩
          · exact Or.inr h

/-- The invariant satisfied by every extracted term: non-empty, made of
word characters, and fixed by lower-casing. -/
def goodTerm (x : Str) : Prop :=
  x ≠ [] ∧ ∀ c ∈ x, isWordChar c = true ∧ c.toLower = c

theorem dropSuffix_good {w : Str} (hw : goodTerm w) {n : Nat} (hn : n < w.length) :
    goodTerm (dropSuffix w n) := by
  refine ⟨?_, fun c hc => hw.2 c (List.take_subset _ _ hc)⟩
  have hlen : (dropSuffix w n).length = w.length - n := by
    rw [dropSuffix, List.length_take]
    omega
  intro hcon
  rw [hcon] at hlen
  simp at hlen
  omega

theorem extractVariants_good {w x : Str} (hw : goodTerm w) (hx : x ∈ extractVariants w) :
    goodTerm x := by
  rw [extractVariants] at hx
  rcases List.mem_cons.mp hx with rfl | hx
  · exact hw
  · by_cases h1 : (strEndsWith w ['i', 'n', 'g'] && decide (w.length > 5)) = true
    · rw [if_pos h1] at hx
      rw [Bool.and_eq_true, decide_eq_true_iff] at h1
      rcases List.mem_singleton.mp hx with rfl
      exact dropSuffix_good hw (by omega)
    · rw [if_neg h1] at hx
      by_cases h2 : (strEndsWith w ['e', 'd'] && decide (w.length > 4)) = true
      · rw [if_pos h2] at hx
        rw [Bool.and_eq_true, decide_eq_true_iff] at h2
        rcases List.mem_cons.mp hx with rfl | hx
        · exact dropSuffix_good hw (by omega)
        · rcases List.mem_singleton.mp hx with rfl
          exact dropSuffix_good hw (by omega)
      · rw [if_neg h2] at hx
        cases hx

theorem extract_good {q x : Str} (hx : x ∈ extract_key_terms q) : goodTerm x := by
  simp only [extract_key_terms] at hx
  rw [mem_dedupFirst] at hx
  rcases List.mem_flatMap.mp hx with ⟨w, hwK, hxv⟩
  rcases List.mem_filter.mp hwK with ⟨hwW, _⟩
  rcases mem_splitTokens hwW with ⟨hwne, hwchars⟩
  have hgood : goodTerm w := by
    refine ⟨hwne, fun c hc => ?_⟩
    rcases hwchars c hc with ⟨hcw, hcl⟩
    rcases List.mem_map.mp hcl with ⟨c₀, _, rfl⟩
    exact ⟨hcw, toLower_idem c₀⟩
  exact extractVariants_good hgood hxv

/-- C9 (amended): applying `extract` to the space-joined output of
`extract(text)` yields a *superset* of `extract(text)`: every term
survives re-tokenization (terms are non-empty lowercase word-character
strings), and a term that was itself produced as a stem variant is
regenerated by its parent token.  The subset direction of the original
claim fails because re-extraction can stem the emitted variants further
(see the counterexample). -/
theorem extract_reextraction_superset (q : Str) :
    ∀ x ∈ extract_key_terms q, x ∈ extract_key_terms (joinSpace (extract_key_terms q)) := by
  intro x hx
  set E := extract_key_terms q with hE
  have hgoodE : ∀ w ∈ E, goodTerm w := fun w hw => extract_good (hE ▸ hw)
  have hlower : strLower (joinSpace E) = joinSpace E := by
    have hfix : ∀ c ∈ joinSpace E, c.toLower = c := by
      intro c hc
      rcases joinSpace_chars _ c hc with ⟨w, hw, hcw⟩ | rfl
      · exact ((hgoodE w hw).2 c hcw).2
      · decide
    calc (joinSpace E).map Char.toLower
        = (joinSpace E).map id := List.map_congr_left hfix
      _ = joinSpace E := List.map_id _
  have htok : splitTokens isWordChar (joinSpace E) = E :=
    splitTokens_joinSpace (by decide) _
      (fun w hw => ⟨(hgoodE w hw).1, fun c hc => ((hgoodE w hw).2 c hc).1⟩)
  -- decompose the membership of `x` in the original extraction
  have hx' := hE ▸ hx
  simp only [extract_key_terms] at hx'
  rw [mem_dedupFirst] at hx'
  rcases List.mem_flatMap.mp hx' with ⟨y, hyK, hxy⟩
  rcases List.mem_filter.mp hyK with ⟨hyW, hyP⟩
  -- the parent token `y` is itself in the output
  have hyE : y ∈ E := by
    rw [hE]
    simp only [extract_key_terms]
    rw [mem_dedupFirst]
    refine List.mem_flatMap.mpr ⟨y, List.mem_filter.mpr ⟨hyW, hyP⟩, ?_⟩
    rw [extractVariants]
    exact List.mem_cons_self _ _
  -- re-extraction: `y` is a surviving key term of the joined text,
  -- so all its variants — `x` among them — are emitted again
  show x ∈ extract_key_terms (joinSpace E)
  simp only [extract_key_terms]
  rw [mem_dedupFirst]
  refine List.mem_flatMap.mpr ⟨y, ?_, hxy⟩
  rw [hlower, htok]
  exact List.mem_filter.mpr ⟨hyE, hyP⟩

theorem extract_reextraction_superset_witness :
    "speed".toList ∈ extract_key_terms (joinSpace (extract_key_terms "speeding".toList)) :=
  extract_reextraction_superset "speeding".toList "speed".toList (by decide)

/-! ## C4 / C5 — the agent loop -/

theorem agentLoop_turns_bounds (db : Db) (endpoint : Endpoint) :
    ∀ (fuel turn : Nat) (s : AgentState),
      turn ≤ (agentLoop db endpoint fuel turn s).2 ∧
      (agentLoop db endpoint fuel turn s).2 ≤ turn + fuel ∧
      (1 ≤ fuel → turn + 1 ≤ (agentLoop db endpoint fuel turn s).2) := by
  intro fuel
  induction fuel with
  | zero =>
    intro turn s
    exact ⟨le_refl _, le_refl _, fun h => absurd h (by omega)⟩
  | succ fuel ih =>
    intro turn s
    rw [agentLoop]
    by_cases hcalls : (endpoint s.messages).tool_calls.isEmpty = true
    · rw [if_pos hcalls]
      exact ⟨by omega, by omega, fun _ => by omega⟩
    · rw [if_neg hcalls]
      by_cases hfin : (processCalls db
          { s with messages := s.messages ++ [assistantMessage (endpoint s.messages)] }
          (endpoint s.messages).tool_calls).final_answer.isSome = true
      · rw [if_pos hfin]
        exact ⟨by omega, by omega, fun _ => by omega⟩
      · rw [if_neg hfin]
        obtain ⟨h1, h2, _⟩ := ih (turn + 1) (processCalls db
          { s with messages := s.messages ++ [assistantMessage (endpoint s.messages)] }
          (endpoint s.messages).tool_calls)
        exact ⟨by omega, by omega, fun _ => by omega⟩

theorem processCalls_final (db : Db) :
    ∀ (cs : List ToolCall) (s : AgentState), s.final_answer = none →
      (processCalls db s cs).final_answer = none ∨
      ((processCalls db s cs).final_answer.isSome = true ∧
        ∃ m, (processCalls db s cs).messages.getLast? = some m ∧
          m.role = .tool ∧ m.name = some "return_final_answer") := by
  intro cs
  induction cs with
  | nil => intro s hs; exact Or.inl hs
  | cons c cs ih =>
    intro s hs
    simp only [processCalls]
    by_cases hname : toolNames.contains c.name = true
    · rw [if_pos hname]
      cases hcall : callTool db c.name c.args with
      | none => exact ih _ hs
      | some r =>
        dsimp only
        by_cases hfin : c.name = "return_final_answer"
        · rw [if_pos hfin]
          have hr : ∃ a, r = .finalAns a := by
            rw [hfin] at hcall
            cases harg : c.args with
            | malformed => rw [harg] at hcall; simp [callTool] at hcall
            | searchArgs k st sn sp ta tb => rw [harg] at hcall; simp [callTool] at hcall
            | readArgs i => rw [harg] at hcall; simp [callTool] at hcall
            | sessionsArgs => rw [harg] at hcall; simp [callTool] at hcall
            | finalArgs a ids =>
              rw [harg] at hcall
              simp [callTool] at hcall
              exact ⟨⟨a, ids⟩, hcall.symm⟩
          obtain ⟨a, rfl⟩ := hr
          refine Or.inr ⟨rfl, ⟨toolMessage c (.finalAns a)
            (guidanceFor (if c.name = "search_lecture_database" then s.search_count + 1
              else s.search_count) (.finalAns a)), ?_, rfl, ?_⟩⟩
          · simp [List.getLast?_concat]
          · rw [toolMessage, hfin]
        · rw [if_neg hfin]
          exact ih _ hs
    · rw [if_neg (by simpa using hname)]
      exact ih _ hs

theorem agentLoop_final (db : Db) (endpoint : Endpoint) :
    ∀ (fuel turn : Nat) (s : AgentState), s.final_answer = none →
      (agentLoop db endpoint fuel turn s).1.final_answer = none ∨
      ∃ m, (agentLoop db endpoint fuel turn s).1.messages.getLast? = some m ∧
        m.role = .tool ∧ m.name = some "return_final_answer" := by
  intro fuel
  induction fuel with
  | zero => intro turn s hs; exact Or.inl hs
  | succ fuel ih =>
    intro turn s hs
    rw [agentLoop]
    by_cases hcalls : (endpoint s.messages).tool_calls.isEmpty = true
    · rw [if_pos hcalls]
      exact Or.inl hs
    · rw [if_neg hcalls]
      rcases processCalls_final db (endpoint s.messages).tool_calls
        { s with messages := s.messages ++ [assistantMessage (endpoint s.messages)] }
        hs with hnone | ⟨hsome, hmsg⟩
      · rw [if_neg (by simp [hnone])]
        exact ih (turn + 1) _ hnone
      · rw [if_pos hsome]
        exact Or.inr hmsg

/-- C4: for every run, `turns_used ≤ MAX_TURNS`; when a final answer is
produced, `turns_used ≥ 1` and the last entry of the transcript is the
tool message of `return_final_answer`; and invoking the termination tool
ends tool-call processing immediately — sibling calls after it in the
same turn are never dispatched. -/
theorem agent_run_invariant (db : Db) (endpoint : Endpoint) (question : String) :
    (run_agent_with_tools db endpoint question).turns_used ≤ MAX_TURNS ∧
    ((run_agent_with_tools db endpoint question).final_answer.isSome = true →
      1 ≤ (run_agent_with_tools db endpoint question).turns_used ∧
      ∃ m, (run_agent_with_tools db endpoint question).messages.getLast? = some m ∧
        m.role = .tool ∧ m.name = some "return_final_answer") ∧
    (∀ (s : AgentState) (pre rest : List ToolCall) (c : ToolCall) (a : String)
      (ids : List Int), c.name = "return_final_answer" → c.args = .finalArgs a ids →
      processCalls db s (pre ++ c :: rest) = processCalls db s (pre ++ [c])) := by
  refine ⟨?_, ?_, ?_⟩
  · exact (agentLoop_turns_bounds db endpoint MAX_TURNS 0 _).2.1
  · intro hsome
    constructor
    · exact (agentLoop_turns_bounds db endpoint MAX_TURNS 0 _).2.2 (by rw [MAX_TURNS]; omega)
    · rcases agentLoop_final db endpoint MAX_TURNS 0
        { messages := [{ role := .system, content := .text (some systemPrompt) },
                       { role := .user, content := .text (some question) }],
          final_answer := none, search_count := 0, read_count := 0 } rfl with hnone | hmsg
      · rw [run_agent_with_tools] at hsome
        simp only [hnone] at hsome
        cases hsome
      · exact hmsg
  · intro s pre rest c a ids hname hargs
    induction pre generalizing s with
    | nil =>
      cases c with
      | mk cid cname cargs =>
        dsimp only at hname hargs
        subst hname
        subst hargs
        rfl
    | cons p pre' ih =>
      simp only [List.cons_append, processCalls]
      split
      · split
        · exact ih _
        · split
          · rfl
          · exact ih _
      · exact ih _

def finalAnswerCall : ToolCall :=
  { id := "1", name := "return_final_answer", args := .finalArgs "42" [1] }

def unknownCall : ToolCall := { id := "2", name := "frobnicate", args := .sessionsArgs }

def constEndpoint : Endpoint := fun _ => { content := none, tool_calls := [finalAnswerCall, unknownCall] }

def emptyState : AgentState :=
  { messages := [], final_answer := none, search_count := 0, read_count := 0 }

theorem agent_run_invariant_witness :
    (run_agent_with_tools sampleDb constEndpoint "q").turns_used ≤ MAX_TURNS ∧
    (run_agent_with_tools sampleDb constEndpoint "q").final_answer.isSome = true ∧
    1 ≤ (run_agent_with_tools sampleDb constEndpoint "q").turns_used ∧
    (∃ m, (run_agent_with_tools sampleDb constEndpoint "q").messages.getLast? = some m ∧
      m.role = .tool ∧ m.name = some "return_final_answer") ∧
    processCalls sampleDb emptyState ([] ++ finalAnswerCall :: [unknownCall]) =
      processCalls sampleDb emptyState ([] ++ [finalAnswerCall]) :=
  ⟨(agent_run_invariant sampleDb constEndpoint "q").1,
   by decide,
   ((agent_run_invariant sampleDb constEndpoint "q").2.1 (by decide)).1,
   ((agent_run_invariant sampleDb constEndpoint "q").2.1 (by decide)).2,
   (agent_run_invariant sampleDb constEndpoint "q").2.2 emptyState [] [unknownCall]
     finalAnswerCall "42" [1] rfl rfl⟩

/-- Endpoint that calls an unknown tool on the first turn and stops on the
second. -/
def unknownToolEndpoint : Endpoint := fun msgs =>
  if msgs.length ≤ 2 then { content := none, tool_calls := [unknownCall] }
  else { content := some "done", tool_calls := [] }

/-- C5 counterexample: the claim says an unknown tool name produces an
error result appended to history as a tool-role message, but the dispatch
guard `if tool_name in tools_by_name:` has no `else` branch — the model
emits a call to `frobnicate`, the run finishes normally, and the final
transcript (system, user, two assistant messages) contains no tool-role
message at all. -/
theorem tool_dispatch_counterexample :
    toolNames.contains "frobnicate" = false ∧
    (∃ m ∈ (run_agent_with_tools sampleDb unknownToolEndpoint "q").messages,
      m.tool_calls = [unknownCall]) ∧
    (run_agent_with_tools sampleDb unknownToolEndpoint "q").messages.filter
      (fun m => m.role == Role.tool) = [] ∧
    (run_agent_with_tools sampleDb unknownToolEndpoint "q").messages.length = 4 :=
  ⟨by decide, by decide, by decide, by decide⟩

/-- C5 (amended): an argument decode failure or a payload that does not
fit a known tool's signature — and any exception a tool body raises,
though in this code `search_lecture_database` catches internally,
returning an error-dict list, and `read_lecture` returns `None` for a
missing id instead of raising `NotFound` — appends an error tool-role
message and processing continues with the remaining calls; an *unknown*
tool name is skipped silently, appending nothing; neither case aborts the
run or sets a final answer. -/
theorem tool_dispatch_errors (db : Db) :
    (∀ (s : AgentState) (c : ToolCall) (cs : List ToolCall),
      toolNames.contains c.name = true → callTool db c.name c.args = none →
      processCalls db s (c :: cs) =
        processCalls db { s with messages := s.messages ++ [toolErrorMessage c] } cs) ∧
    (∀ (s : AgentState) (c : ToolCall) (cs : List ToolCall),
      toolNames.contains c.name = false →
      processCalls db s (c :: cs) = processCalls db s cs) := by
  constructor
  · intro s c cs hname hcall
    simp only [processCalls]
    rw [if_pos hname, hcall]
  · intro s c cs hname
    simp only [processCalls]
    rw [if_neg (by simpa using hname)]

def malformedCall : ToolCall := { id := "3", name := "read_lecture", args := .malformed }

theorem tool_dispatch_errors_witness :
    processCalls sampleDb emptyState [malformedCall] =
      { emptyState with messages := emptyState.messages ++ [toolErrorMessage malformedCall] } ∧
    processCalls sampleDb emptyState [unknownCall] = emptyState :=
  ⟨(tool_dispatch_errors sampleDb).1 emptyState malformedCall [] (by decide) (by decide),
   (tool_dispatch_errors sampleDb).2 emptyState unknownCall [] (by decide)⟩
